import Mathlib

/-!
Verification of the git `Storage` component (`src/lib/platform/git/storage.js`).

The component is an orchestration layer over an external version-control
engine.  We embed it shallowly: the engine's observable state (commit object
store, remote branches, local remote-tracking refs, local branches, checked-out
branch, working tree, staging index) is an explicit `GitState`, each engine
call is a state transformer returning `Except String _` when the underlying
git invocation can fail, and each `Storage` method is the literal composition
of those calls as written in the source.  Strings coming back from the engine
keep their raw shape (trailing newlines) so that the JavaScript-side string
processing (`trim`, `replace`, `split('\n')`, `filter(Boolean)`) is modelled
faithfully.  Timestamps are modelled as natural numbers; the session's wall
clock is the `now` field of the state, so `new Date()` is `st.now` and the
author timestamp such as printed by `--format=%ai` is the commit's
`authorTime` field.
-/

/-- Whitespace test covering the whitespace characters that occur in git
plumbing output; models the character class trimmed by JavaScript
`String.prototype.trim`. -/
def isWsChar (c : Char) : Bool :=
  c == ' ' || c == '\n' || c == '\t' || c == '\r'

/-- Trim on character lists: drop whitespace from both ends. -/
def trimL (s : List Char) : List Char :=
  ((s.dropWhile isWsChar).reverse.dropWhile isWsChar).reverse

/-- Model of JavaScript `s.trim()`. -/
def jsTrim (s : String) : String :=
  ⟨trimL s.data⟩

/-- Replace the first occurrence of `pat` (a nonempty literal) by `repl`,
on character lists; models JavaScript `s.replace(pat, repl)` with a string
pattern, which substitutes only the first match. -/
def replaceFirstL (pat repl : List Char) : List Char → List Char
  | [] => []
  | c :: rest =>
    if pat.isPrefixOf (c :: rest) then repl ++ (c :: rest).drop pat.length
    else c :: replaceFirstL pat repl rest

/-- Model of JavaScript `s.replace(pat, repl)` for a nonempty string pattern. -/
def replaceFirstStr (pat repl s : String) : String :=
  ⟨replaceFirstL pat.data repl.data s.data⟩

/-- Model of JavaScript `s.split(sep)` for a single-character separator, on
character lists.  `split` keeps empty segments, so the result is always
nonempty. -/
def jsSplitL (sep : Char) : List Char → List (List Char)
  | [] => [[]]
  | c :: rest =>
    if c == sep then [] :: jsSplitL sep rest
    else
      match jsSplitL sep rest with
      | [] => [[c]]
      | h :: t => (c :: h) :: t

/-- Model of JavaScript `s.split(sep)` for a single-character separator. -/
def jsSplit (sep : Char) (s : String) : List String :=
  (jsSplitL sep s.data).map (fun l => ⟨l⟩)

/-- Newline-terminated concatenation, the raw shape of `ls-tree --name-only`
output: one line per name, each followed by a newline. -/
def joinLines : List String → String
  | [] => ""
  | n :: rest => n ++ "\n" ++ joinLines rest

/-- JavaScript truthiness of an optional string argument: `undefined`/`null`
are modelled as `none`, and the empty string is the only falsy string. -/
def isTruthy : Option String → Bool
  | none => false
  | some s => s != ""

/-- Model of the JavaScript expression `o || d` for an optional string `o`:
the default is taken when the argument is absent or the empty string. -/
def jsOrD (o : Option String) (d : String) : String :=
  match o with
  | none => d
  | some s => if s == "" then d else s

/-- Embeds `localName` (storage.js line 226): strip a leading `origin/`
from a branch name, modelling `branchName.replace(/^origin\//, '')`. -/
def localName (branchName : String) : String :=
  if ("origin/".data).isPrefixOf branchName.data then ⟨branchName.data.drop 7⟩
  else branchName

/-- One unit of a commit, as consumed by `commitFilesToBranch`:
a relative path and raw contents. -/
structure FileChange where
  name : String
  contents : String
  deriving Repr, DecidableEq

/-- A tree maps file paths to raw contents.  Association lists are used with
first-match lookup and canonical overwrite. -/
abbrev FileTree := List (String × String)

/-- A commit object: parent commit ids, the tree it snapshots, the author
timestamp and the commit message. -/
structure Commit where
  parents : List String
  tree : FileTree
  authorTime : Nat
  message : String
  deriving Repr, DecidableEq

/-- Observable state of the version-control engine bound to the working
directory: the commit object store, the branches on the remote, the local
remote-tracking refs (`refs/remotes/origin/*`), the local branches, the
currently checked-out branch, the working tree, the staging index, a
freshness counter used to mint new commit ids, and the session wall clock. -/
structure GitState where
  commits : List (String × Commit)
  remoteBranches : List (String × String)
  trackingRefs : List (String × String)
  localBranches : List (String × String)
  head : String
  workTree : FileTree
  index : FileTree
  fresh : Nat
  now : Nat
  deriving Repr, DecidableEq

/-- The session configuration held by `Storage` (`config = { ...args }`),
restricted to the fields the component reads. -/
structure SessionConfig where
  url : String
  platform : String
  repository : String
  gitAuthorName : Option String
  gitAuthorEmail : Option String
  baseBranch : String
  deriving Repr, DecidableEq

/-- First-match lookup in an association list. -/
def lookupA {α : Type} (l : List (String × α)) (k : String) : Option α :=
  (l.find? (fun p => p.1 == k)).map (fun p => p.2)

/-- Overwrite a key in an association list (canonical representation:
the new binding is put in front and stale bindings are dropped). -/
def setA {α : Type} (l : List (String × α)) (k : String) (v : α) :
    List (String × α) :=
  (k, v) :: l.filter (fun p => p.1 != k)

/-- Remove a key from an association list. -/
def removeA {α : Type} (l : List (String × α)) (k : String) :
    List (String × α) :=
  l.filter (fun p => p.1 != k)

/-- Resolve a revision the way `git branch --contains <rev>` resolves its
argument in this working copy: local branches first, then remote-tracking
refs. -/
def resolveRef (st : GitState) (r : String) : Option String :=
  match lookupA st.localBranches r with
  | some sha => some sha
  | none => lookupA st.trackingRefs r

/-- Bounded ancestry walk over the commit store: does the commit `target`
lie in the ancestor closure of `src` (inclusive)?  The fuel argument makes
the walk structurally terminating; callers pass more fuel than the store
has commits. -/
def reachable (store : List (String × Commit)) :
    Nat → String → String → Bool
  | 0, _, _ => false
  | fuel + 1, src, target =>
    src == target ||
      (match lookupA store src with
       | some c => c.parents.any (fun p => reachable store fuel p target)
       | none => false)

/-- A remote-tracking branch tip `tip` "contains" commit `target` iff
`target` is an ancestor of (or equal to) `tip`. -/
def containsCommit (store : List (String × Commit)) (tip target : String) :
    Bool :=
  reachable store (store.length + 1) tip target

/-- Engine call `git.reset('hard')`: restore working tree and index to the
tip commit of the checked-out branch. -/
def resetHard (st : GitState) : Except String GitState :=
  match lookupA st.localBranches st.head with
  | none => .error "reset: unresolved HEAD"
  | some sha =>
    match lookupA st.commits sha with
    | none => .error "reset: missing commit object"
    | some c => .ok { st with workTree := c.tree, index := c.tree }

/-- Engine call `git.checkout(['-B', branchName, sha])` with a commit id as
start point: force-create or move the local branch to that commit and check
it out. -/
def checkoutBSha (st : GitState) (branchName sha : String) :
    Except String GitState :=
  match lookupA st.commits sha with
  | none => .error "checkout: unknown revision"
  | some c =>
    .ok { st with
      localBranches := setA st.localBranches branchName sha,
      head := branchName,
      workTree := c.tree,
      index := c.tree }

/-- Engine call `git.checkout(['-B', branchName, 'origin/' ++ parent])`:
force-create or move the local branch to the remote-tracking tip of
`parent` and check it out. -/
def checkoutBOrigin (st : GitState) (branchName parent : String) :
    Except String GitState :=
  match lookupA st.trackingRefs parent with
  | none => .error "checkout: unknown revision"
  | some sha =>
    match lookupA st.commits sha with
    | none => .error "checkout: missing commit object"
    | some c =>
      .ok { st with
        localBranches := setA st.localBranches branchName sha,
        head := branchName,
        workTree := c.tree,
        index := c.tree }

/-- Engine call `git.push(['origin', branchName, '--force'])`: point the
remote branch, and hence the local remote-tracking ref, at the local
branch's tip. -/
def pushForce (st : GitState) (branchName : String) :
    Except String GitState :=
  match lookupA st.localBranches branchName with
  | none => .error "push: no such local branch"
  | some sha =>
    .ok { st with
      remoteBranches := setA st.remoteBranches branchName sha,
      trackingRefs := setA st.trackingRefs branchName sha }

/-- Engine call `git.raw(['push', '--delete', 'origin', branchName])`:
delete the branch on the remote; on success git also prunes the local
remote-tracking ref. -/
def pushDeleteOrigin (st : GitState) (branchName : String) :
    Except String GitState :=
  match lookupA st.remoteBranches branchName with
  | none => .error "push: no such remote branch"
  | some _ =>
    .ok { st with
      remoteBranches := removeA st.remoteBranches branchName,
      trackingRefs := removeA st.trackingRefs branchName }

/-- Engine call `git.deleteLocalBranch(branchName)`: fails when the branch
does not exist locally or is the checked-out branch. -/
def gitDeleteLocalBranch (st : GitState) (branchName : String) :
    Except String GitState :=
  if st.head == branchName then .error "cannot delete checked out branch"
  else
    match lookupA st.localBranches branchName with
    | none => .error "branch not found"
    | some _ =>
      .ok { st with localBranches := removeA st.localBranches branchName }

/-- Engine call `git.revparse(['origin/' ++ branchName])`: raw output is
the commit id followed by a newline. -/
def revparseOrigin (st : GitState) (branchName : String) :
    Except String String :=
  match lookupA st.trackingRefs branchName with
  | none => .error "unknown revision"
  | some sha => .ok (sha ++ "\n")

/-- Engine call `git.raw(['show-branch', 'origin/' ++ branchName])`:
succeeds exactly when the remote-tracking ref resolves. -/
def showBranchOrigin (st : GitState) (branchName : String) :
    Except String Unit :=
  match lookupA st.trackingRefs branchName with
  | none => .error "no such ref"
  | some _ => .ok ()

/-- Engine call `git.show([ref ++ ':' ++ path])` against a remote-tracking
tip: the raw blob contents of the file at that revision. -/
def showFileOrigin (st : GitState) (branchName filePath : String) :
    Except String String :=
  match lookupA st.trackingRefs branchName with
  | none => .error "unknown revision"
  | some sha =>
    match lookupA st.commits sha with
    | none => .error "missing commit object"
    | some c =>
      match lookupA c.tree filePath with
      | none => .error "path does not exist"
      | some content => .ok content

/-- Engine call `git.show(['-s', '--format=%ai', 'origin/' ++ branchName])`:
the author timestamp of the tip commit (timestamps are naturals in the
model, so date printing and `Date.parse` are the identity on them). -/
def showTimeOrigin (st : GitState) (branchName : String) :
    Except String Nat :=
  match lookupA st.trackingRefs branchName with
  | none => .error "unknown revision"
  | some sha =>
    match lookupA st.commits sha with
    | none => .error "missing commit object"
    | some c => .ok c.authorTime

/-- Engine call
`git.raw(['ls-tree', '-r', '--name-only', 'origin/' ++ branchName])`:
one line per tracked path, each terminated by a newline. -/
def lsTreeOrigin (st : GitState) (branchName : String) :
    Except String String :=
  match lookupA st.trackingRefs branchName with
  | none => .error "unknown revision"
  | some sha =>
    match lookupA st.commits sha with
    | none => .error "missing commit object"
    | some c => .ok (joinLines (c.tree.map (fun p => p.1)))

/-- Engine call
`git.branch(['--remotes', '--verbose', '--contains', target])`: the
`all` field of the result, i.e. the `origin/`-prefixed names of the
remote-tracking branches whose tips contain the commit `target` resolves
to. -/
def branchRemotesContains (st : GitState) (target : String) :
    Except String (List String) :=
  match resolveRef st target with
  | none => .error "unknown revision"
  | some tsha =>
    .ok (((st.trackingRefs.filter
        (fun p => containsCommit st.commits p.2 tsha)).map
        (fun p => "origin/" ++ p.1)))

/-- Engine call `fs.writeFile(join(repoDir, file.name), ...)` iterated over
the files of a commit request, in order: overwrite each path in the working
tree. -/
def doWrites (wt : FileTree) (files : List FileChange) : FileTree :=
  files.foldl (fun t f => setA t f.name f.contents) wt

/-- Engine call `git.add(names)`: stage the current working-tree contents
of each named path (all named paths have just been written by the caller,
so they are present in the working tree). -/
def gitAdd (st : GitState) (names : List String) : GitState :=
  { st with
    index := names.foldl (fun ix n =>
      match lookupA st.workTree n with
      | some c => setA ix n c
      | none => ix) st.index }

/-- Engine call `git.commit(message)`: record the staging index as a new
commit on the checked-out branch; fails when nothing is staged relative to
the branch tip. -/
def gitCommit (st : GitState) (message : String) : Except String GitState :=
  match lookupA st.localBranches st.head with
  | none => .error "commit: unresolved HEAD"
  | some psha =>
    match lookupA st.commits psha with
    | none => .error "commit: missing commit object"
    | some pc =>
      if st.index = pc.tree then .error "nothing to commit"
      else
        .ok { st with
          commits := ("sha-" ++ toString st.fresh,
            { parents := [psha], tree := st.index,
              authorTime := st.now, message := message }) :: st.commits,
          localBranches :=
            setA st.localBranches st.head ("sha-" ++ toString st.fresh),
          fresh := st.fresh + 1 }

/-- Embeds `createBranch` (storage.js lines 86-90): hard reset, force
checkout of the branch at the given commit, force push. -/
def createBranch (st : GitState) (branchName sha : String) :
    Except String GitState :=
  match resetHard st with
  | .error e => .error e
  | .ok st1 =>
    match checkoutBSha st1 branchName sha with
    | .error e => .error e
    | .ok st2 => pushForce st2 branchName

/-- Embeds `getBranchCommit` (storage.js lines 93-96): rev-parse the
remote-tracking ref and trim the raw output. -/
def getBranchCommit (st : GitState) (branchName : String) :
    Except String String :=
  match revparseOrigin st branchName with
  | .error e => .error e
  | .ok res => .ok (jsTrim res)

/-- Embeds `setBaseBranch` (storage.js lines 107-112): only a truthy
argument replaces the session's base branch. -/
def setBaseBranch (branchName : Option String) (config : SessionConfig) :
    SessionConfig :=
  match branchName with
  | none => config
  | some s => if s != "" then { config with baseBranch := s } else config

/-- Embeds `branchExists` (storage.js lines 129-136): probe the
remote-tracking ref with `show-branch` and interpret any failure as
`false`. -/
def branchExists (st : GitState) (branchName : String) : Bool :=
  match showBranchOrigin st branchName with
  | .ok _ => true
  | .error _ => false

/-- Embeds `getFileList` (storage.js lines 114-127): default the branch to
the session base branch, return the empty list when the branch does not
exist, otherwise split the `ls-tree` output on newlines and drop falsy
(empty) entries.  The `ls-tree` call itself is outside the existence
guard's try-free region, so its failure would propagate, hence the
`Except` result. -/
def getFileList (config : SessionConfig) (st : GitState)
    (branchName : Option String) : Except String (List String) :=
  let branch := jsOrD branchName config.baseBranch
  if branchExists st branch = false then .ok []
  else
    match lsTreeOrigin st branch with
    | .error e => .error e
    | .ok files => .ok ((jsSplit '\n' files).filter (fun s => s != ""))

/-- Embeds `isBranchStale` (storage.js lines 145-153): list the
remote-tracking branches containing the base branch tip, strip their
`origin/` prefixes, and report staleness when the branch is not among
them. -/
def isBranchStale (config : SessionConfig) (st : GitState)
    (branchName : String) : Except String Bool :=
  match branchRemotesContains st config.baseBranch with
  | .error e => .error e
  | .ok branches => .ok (!(branches.map localName).contains branchName)

/-- Embeds `deleteBranch` (storage.js lines 155-162): delete the remote
branch (failures propagate), then try to delete the local branch and
swallow any failure of that deletion. -/
def deleteBranch (st : GitState) (branchName : String) :
    Except String GitState :=
  match pushDeleteOrigin st branchName with
  | .error e => .error e
  | .ok st1 =>
    match gitDeleteLocalBranch st1 branchName with
    | .ok st2 => .ok st2
    | .error _ => .ok st1

/-- Embeds `getBranchLastCommitTime` (storage.js lines 172-183): the author
timestamp of the remote-tracking tip, or the current time when the lookup
fails. -/
def getBranchLastCommitTime (st : GitState) (branchName : String) : Nat :=
  match showTimeOrigin st branchName with
  | .ok time => time
  | .error _ => st.now

/-- Embeds `getFile` (storage.js lines 185-201): when the branch argument
is truthy and the branch does not exist, return `null`; otherwise show the
file at the remote-tracking tip of the given branch (or the base branch)
and swallow any failure into `null`. -/
def getFile (config : SessionConfig) (st : GitState)
    (filePath : String) (branchName : Option String) : Option String :=
  if isTruthy branchName &&
      !(branchExists st (jsOrD branchName config.baseBranch)) then none
  else
    match showFileOrigin st (jsOrD branchName config.baseBranch) filePath with
    | .ok content => some content
    | .error _ => none

/-- Embeds `commitFilesToBranch` (storage.js lines 203-220): hard reset,
force checkout of the branch from the remote-tracking parent (defaulting
to the session base branch via the JavaScript default-parameter rule, i.e.
only when the argument is absent), write every file, stage exactly those
paths, commit, force push. -/
def commitFilesToBranch (config : SessionConfig) (st : GitState)
    (branchName : String) (files : List FileChange) (message : String)
    (parentBranch : Option String) : Except String GitState :=
  let parent := parentBranch.getD config.baseBranch
  match resetHard st with
  | .error e => .error e
  | .ok st1 =>
    match checkoutBOrigin st1 branchName parent with
    | .error e => .error e
    | .ok st2 =>
      let st3 := { st2 with workTree := doWrites st2.workTree files }
      let st4 := gitAdd st3 (files.map (fun f => f.name))
      match gitCommit st4 message with
      | .error e => .error e
      | .ok st5 => pushForce st5 branchName

/-- Embeds the base-branch resolution step of `initRepo` (storage.js lines
79-84): `config.baseBranch || raw(['symbolic-ref', ...]).replace('refs/remotes/origin/', '').trim()`.
The raw symbolic-ref output of the engine is passed in as `symref`. -/
def initRepoBaseBranch (provided : Option String) (symref : String) :
    String :=
  if isTruthy provided then jsOrD provided ""
  else jsTrim (replaceFirstStr "refs/remotes/origin/" "" symref)

/-- Specification-side view: the commit object at the remote-tracking tip
of a branch. -/
def commitAtOrigin (st : GitState) (branchName : String) : Option Commit :=
  match lookupA st.trackingRefs branchName with
  | none => none
  | some sha => lookupA st.commits sha

/-- Specification-side view: the file tree content at the remote-tracking
tip of a branch. -/
def treeAtOrigin (st : GitState) (branchName : String) : Option FileTree :=
  match commitAtOrigin st branchName with
  | none => none
  | some c => some c.tree

/-- Specification-side view: the raw content of a file at the
remote-tracking tip of a branch, absent when the branch or the path is. -/
def fileAtOrigin (st : GitState) (branchName filePath : String) :
    Option String :=
  match commitAtOrigin st branchName with
  | none => none
  | some c => lookupA c.tree filePath

/-- Specification-side view: the names (remote-tracking prefix stripped) of
the remote-tracking branches whose tips contain the given commit. -/
def containingBranchNames (st : GitState) (baseSha : String) : List String :=
  (st.trackingRefs.filter
    (fun p => containsCommit st.commits p.2 baseSha)).map
    (fun p => localName ("origin/" ++ p.1))

/-- Specification-side view: the tree produced by one `commitFilesToBranch`
run, as a function of the parent tree and the requested file changes:
write all files over the parent tree, then stage exactly the named paths
on top of the parent tree. -/
def builtTree (pt : FileTree) (files : List FileChange) : FileTree :=
  (files.map (fun f => f.name)).foldl (fun ix n =>
    match lookupA (doWrites pt files) n with
    | some c => setA ix n c
    | none => ix) pt

/-- A one-commit repository used as a concrete test bed: branch `master`
at commit `c0`, cloned and checked out. -/
def commit0 : Commit :=
  { parents := [], tree := [("README.md", "hello")], authorTime := 100,
    message := "init" }

/-- A child commit of `c0`, used to model a base branch that has
advanced. -/
def commit1 : Commit :=
  { parents := ["c0"], tree := [("README.md", "hello2")], authorTime := 200,
    message := "bump" }

/-- Concrete working-copy state: a fresh clone of a repository whose only
branch `master` points at `c0`. -/
def baseState : GitState :=
  { commits := [("c0", commit0)],
    remoteBranches := [("master", "c0")],
    trackingRefs := [("master", "c0")],
    localBranches := [("master", "c0")],
    head := "master",
    workTree := commit0.tree,
    index := commit0.tree,
    fresh := 0,
    now := 999 }

/-- Concrete session configuration with base branch `master`. -/
def cfgMaster : SessionConfig :=
  { url := "u", platform := "p", repository := "r",
    gitAuthorName := none, gitAuthorEmail := none, baseBranch := "master" }

/-- Concrete state with a branch `feature` freshly created at the base
branch tip `c0`. -/
def freshState : GitState :=
  { baseState with
    remoteBranches := [("master", "c0"), ("feature", "c0")],
    trackingRefs := [("master", "c0"), ("feature", "c0")] }

/-- Concrete state where the base branch has advanced to `c1` past the
branch `feature`, which still points at `c0`. -/
def advancedState : GitState :=
  { baseState with
    commits := [("c1", commit1), ("c0", commit0)],
    remoteBranches := [("master", "c1"), ("feature", "c0")],
    trackingRefs := [("master", "c1"), ("feature", "c0")],
    localBranches := [("master", "c1")] }

/-- State after `createBranch baseState "feature" "c0"` (used to witness
the create-then-query property on a concrete input). -/
def createdState : GitState :=
  match createBranch baseState "feature" "c0" with
  | .ok s => s
  | .error _ => baseState

/-- The file change committed in the concrete `commitFilesToBranch`
runs. -/
def pkgChange : FileChange := { name := "pkg.json", contents := "v1" }

/-- State after one concrete `commitFilesToBranch` run on `baseState`. -/
def committedState1 : GitState :=
  match commitFilesToBranch cfgMaster baseState "feature" [pkgChange]
      "msg" none with
  | .ok s => s
  | .error _ => baseState

/-- State after repeating the same `commitFilesToBranch` run on
`committedState1`. -/
def committedState2 : GitState :=
  match commitFilesToBranch cfgMaster committedState1 "feature" [pkgChange]
      "msg" none with
  | .ok s => s
  | .error _ => committedState1

/-- State after `deleteBranch freshState "feature"` (the local branch
`feature` does not exist there, so the local deletion fails and is
swallowed). -/
def deletedState : GitState :=
  match deleteBranch freshState "feature" with
  | .ok s => s
  | .error _ => freshState

theorem lookupA_setA_self {α : Type} (l : List (String × α)) (k : String)
    (v : α) : lookupA (setA l k v) k = some v := by
  simp [lookupA, setA, List.find?]

theorem lookupA_removeA_self {α : Type} (l : List (String × α)) (k : String) :
    lookupA (removeA l k) k = none := by
  induction l with
  | nil => rfl
  | cons p t ih =>
    by_cases h : p.1 = k
    · simpa [removeA, h] using ih
    · simp [lookupA, removeA, List.find?, h]

theorem dropWhile_all_false {p : Char → Bool} {l : List Char}
    (h : ∀ c ∈ l, p c = false) : l.dropWhile p = l := by
  cases l with
  | nil => rfl
  | cons c t => simp [List.dropWhile, h c (List.mem_cons_self c t)]

theorem trimL_append_newline {l : List Char}
    (h : ∀ c ∈ l, isWsChar c = false) : trimL (l ++ ['\n']) = l := by
  cases l with
  | nil => rfl
  | cons c t =>
    have hc : isWsChar c = false := h c (List.mem_cons_self c t)
    have hall : ∀ x ∈ (c :: t).reverse, isWsChar x = false := by
      intro x hx
      exact h x (List.mem_reverse.mp hx)
    have h1 : ((c :: t) ++ ['\n']).dropWhile isWsChar = (c :: t) ++ ['\n'] := by
      rw [List.cons_append, List.dropWhile_cons, hc]
      simp
    have h2 : ((c :: t) ++ ['\n']).reverse = '\n' :: (c :: t).reverse := by
      simp
    have h3 :
        ('\n' :: (c :: t).reverse).dropWhile isWsChar = (c :: t).reverse := by
      rw [List.dropWhile_cons, show isWsChar '\n' = true from rfl]
      simpa using dropWhile_all_false hall
    simp only [trimL, h1, h2, h3, List.reverse_reverse]

theorem trimL_all_not_ws {l : List Char}
    (h : ∀ c ∈ l, isWsChar c = false) : trimL l = l := by
  have h2 : ∀ c ∈ l.reverse, isWsChar c = false := by
    intro x hx
    exact h x (List.mem_reverse.mp hx)
  simp [trimL, dropWhile_all_false h, dropWhile_all_false h2]

theorem jsTrim_append_newline (s : String)
    (h : ∀ c ∈ s.data, isWsChar c = false) : jsTrim (s ++ "\n") = s := by
  have hd : (s ++ "\n").data = s.data ++ ['\n'] := by
    simp [String.data_append]
  have : jsTrim (s ++ "\n") = ⟨trimL (s.data ++ ['\n'])⟩ := by
    simp [jsTrim, hd]
  rw [this, trimL_append_newline h]

theorem replaceFirstL_left (pat repl rest : List Char) (hpat : pat ≠ []) :
    replaceFirstL pat repl (pat ++ rest) = repl ++ rest := by
  cases pat with
  | nil => exact absurd rfl hpat
  | cons c p =>
    have hpre : ((c :: p).isPrefixOf (c :: (p ++ rest))) = true := by
      rw [← List.cons_append]
      simp [ List.isPrefixOf_iff_prefix]
    simp [replaceFirstL, hpre, List.drop_left]

theorem jsSplitL_sepfree_append :
    ∀ (n : List Char), '\n' ∉ n → ∀ (s : List Char),
      jsSplitL '\n' (n ++ '\n' :: s) = n :: jsSplitL '\n' s := by
  intro n
  induction n with
  | nil =>
    intro _ s
    simp [jsSplitL]
  | cons c t ih =>
    intro h s
    have hc : (c == '\n') = false := by
      simp only [beq_eq_false_iff_ne]
      intro hcc
      exact h (hcc ▸ List.mem_cons_self c t)
    have ht : '\n' ∉ t := fun hx => h (List.mem_cons_of_mem c hx)
    simp [jsSplitL, hc, ih ht s]

theorem jsSplitL_foldr_lines :
    ∀ (names : List (List Char)), (∀ n ∈ names, '\n' ∉ n) →
      jsSplitL '\n' (names.foldr (fun n acc => n ++ '\n' :: acc) []) =
        names ++ [[]] := by
  intro names
  induction names with
  | nil => intro _; rfl
  | cons n rest ih =>
    intro h
    have hn : '\n' ∉ n := h n (List.mem_cons_self n rest)
    have hrest : ∀ m ∈ rest, '\n' ∉ m :=
      fun m hm => h m (List.mem_cons_of_mem n hm)
    simp only [List.foldr_cons, jsSplitL_sepfree_append n hn, ih hrest,
      List.cons_append]

theorem joinLines_data (names : List String) :
    (joinLines names).data =
      (names.map String.data).foldr (fun n acc => n ++ '\n' :: acc) [] := by
  induction names with
  | nil => rfl
  | cons n rest ih =>
    simp only [joinLines, String.data_append, ih, List.map_cons,
      List.foldr_cons]
    simp [show ("\n" : String).data = ['\n'] from rfl]

theorem jsSplit_joinLines (names : List String)
    (h : ∀ n ∈ names, '\n' ∉ n.data) :
    jsSplit '\n' (joinLines names) = names ++ [""] := by
  have hd : ∀ m ∈ names.map String.data, '\n' ∉ m := by
    intro m hm
    rcases List.mem_map.mp hm with ⟨n, hn, rfl⟩
    exact h n hn
  have h1 : jsSplitL '\n' (joinLines names).data =
      names.map String.data ++ [[]] := by
    rw [joinLines_data]
    exact jsSplitL_foldr_lines (names.map String.data) hd
  simp only [jsSplit, h1, List.map_append, List.map_map, List.map_cons,
    List.map_nil]
  have h2 : ((fun l => (⟨l⟩ : String)) ∘ String.data) = id := by
    funext n
    rfl
  simp [h2]

/-- C4: `branchExists(b)` is true exactly when the remote-tracking ref
`origin/<b>` resolves, and the resolution failure of the probing
`show-branch` call is interpreted as the value `false` rather than a
propagated error (`branchExists` is a total boolean function and never
throws). -/
theorem branchExists_spec (st : GitState) (b : String) :
    branchExists st b = (lookupA st.trackingRefs b).isSome ∧
    (branchExists st b = false ↔
      showBranchOrigin st b = Except.error "no such ref") := by
  constructor
  · cases h : lookupA st.trackingRefs b <;>
      simp [branchExists, showBranchOrigin, h]
  · cases h : lookupA st.trackingRefs b <;>
      simp [branchExists, showBranchOrigin, h]

/-- Witness for C4 at a concrete state: the branch `feature` exists in
`freshState` and a missing branch is reported as `false`. -/
theorem branchExists_spec_witness :
    branchExists freshState "feature" =
      (lookupA freshState.trackingRefs "feature").isSome ∧
    (branchExists freshState "feature" = false ↔
      showBranchOrigin freshState "feature" = Except.error "no such ref") :=
  branchExists_spec freshState "feature"

/-- C8: `getBranchLastCommitTime(b)` returns the author timestamp of the
tip commit of `origin/<b>` when it resolves, and the current time
otherwise; it is a total function and never throws. -/
theorem getBranchLastCommitTime_spec (st : GitState) (b : String) :
    getBranchLastCommitTime st b =
      (match commitAtOrigin st b with
       | some c => c.authorTime
       | none => st.now) := by
  cases h1 : lookupA st.trackingRefs b with
  | none =>
    simp [getBranchLastCommitTime, showTimeOrigin, commitAtOrigin, h1]
  | some sha =>
    cases h2 : lookupA st.commits sha <;>
      simp [getBranchLastCommitTime, showTimeOrigin, commitAtOrigin, h1, h2]

/-- Witness for C8 at a concrete state: an unresolvable branch yields the
current time. -/
theorem getBranchLastCommitTime_spec_witness :
    getBranchLastCommitTime baseState "nope" = baseState.now := by
  rw [getBranchLastCommitTime_spec baseState "nope"]
  decide

/-- C5: `getFile(path, branchName?)` equals the specification-side lookup
of the path at the remote-tracking tip of the requested branch (the base
branch when the argument is omitted or falsy): the raw content when branch
and path exist, `none` when the branch does not exist or the path is
absent, with every lookup failure swallowed into `none` (the function is a
total `Option`-valued function and never throws). -/
theorem getFile_spec (config : SessionConfig) (st : GitState)
    (filePath : String) (branchName : Option String) :
    getFile config st filePath branchName =
      fileAtOrigin st (jsOrD branchName config.baseBranch) filePath := by
  cases hg : (isTruthy branchName &&
      !(branchExists st (jsOrD branchName config.baseBranch))) with
  | true =>
    have hbe : branchExists st (jsOrD branchName config.baseBranch) = false := by
      rcases Bool.and_eq_true_iff.mp hg with ⟨_, hb⟩
      simpa using hb
    have hlk : lookupA st.trackingRefs (jsOrD branchName config.baseBranch)
        = none := by
      cases h : lookupA st.trackingRefs (jsOrD branchName config.baseBranch)
      · rfl
      · simp [branchExists, showBranchOrigin, h] at hbe
    simp [getFile, hg, fileAtOrigin, commitAtOrigin, hlk]
  | false =>
    cases h1 : lookupA st.trackingRefs (jsOrD branchName config.baseBranch) with
    | none =>
      simp [getFile, hg, showFileOrigin, fileAtOrigin, commitAtOrigin, h1]
    | some sha =>
      cases h2 : lookupA st.commits sha with
      | none =>
        simp [getFile, hg, showFileOrigin, fileAtOrigin, commitAtOrigin,
          h1, h2]
      | some c =>
        cases h3 : lookupA c.tree filePath <;>
          simp [getFile, hg, showFileOrigin, fileAtOrigin, commitAtOrigin,
            h1, h2, h3]

/-- Witness for C5 at a concrete state: reading `README.md` from the base
branch of `baseState`. -/
theorem getFile_spec_witness :
    getFile cfgMaster baseState "README.md" none =
      fileAtOrigin baseState (jsOrD none cfgMaster.baseBranch) "README.md" :=
  getFile_spec cfgMaster baseState "README.md" none

/-- C10: `setBaseBranch` ignores a falsy argument (absent or empty
string), replaces the session base branch on a truthy argument, and in
either case leaves every other configuration field unchanged. -/
theorem setBaseBranch_spec (bn : Option String) (config : SessionConfig) :
    (isTruthy bn = false → setBaseBranch bn config = config) ∧
    (∀ s, bn = some s → s ≠ "" →
      setBaseBranch bn config = { config with baseBranch := s }) ∧
    (setBaseBranch bn config).url = config.url ∧
    (setBaseBranch bn config).platform = config.platform ∧
    (setBaseBranch bn config).repository = config.repository ∧
    (setBaseBranch bn config).gitAuthorName = config.gitAuthorName ∧
    (setBaseBranch bn config).gitAuthorEmail = config.gitAuthorEmail := by
  cases bn with
  | none => simp [setBaseBranch, isTruthy]
  | some s =>
    by_cases hs : s = ""
    · subst hs
      simp [setBaseBranch, isTruthy]
    · simp [setBaseBranch, isTruthy, hs]

/-- Witness for C10 at a concrete input: a truthy argument replaces only
the base branch. -/
theorem setBaseBranch_spec_witness :
    setBaseBranch (some "dev") cfgMaster =
      { cfgMaster with baseBranch := "dev" } :=
  (setBaseBranch_spec (some "dev") cfgMaster).2.1 "dev" rfl (by decide)

theorem lookupA_cons_self {α : Type} (t : List (String × α)) (k : String)
    (v : α) : lookupA ((k, v) :: t) k = some v := by
  simp [lookupA, List.find?]

theorem resetHard_frame (st st1 : GitState)
    (h : resetHard st = Except.ok st1) :
    st1.trackingRefs = st.trackingRefs ∧ st1.commits = st.commits ∧
    st1.localBranches = st.localBranches ∧
    st1.remoteBranches = st.remoteBranches ∧ st1.head = st.head := by
  cases h1 : lookupA st.localBranches st.head with
  | none => simp [resetHard, h1] at h
  | some sha =>
    cases h2 : lookupA st.commits sha with
    | none => simp [resetHard, h1, h2] at h
    | some c =>
      simp [resetHard, h1, h2] at h
      subst h
      simp

theorem checkoutBSha_ok (st : GitState) (b sha : String) (st2 : GitState)
    (h : checkoutBSha st b sha = Except.ok st2) :
    ∃ c, lookupA st.commits sha = some c ∧
      st2 = { st with
        localBranches := setA st.localBranches b sha,
        head := b, workTree := c.tree, index := c.tree } := by
  cases h1 : lookupA st.commits sha with
  | none => simp [checkoutBSha, h1] at h
  | some c =>
    simp [checkoutBSha, h1] at h
    exact ⟨c, by simp [h1], h.symm⟩

theorem checkoutBOrigin_ok (st : GitState) (b parent : String)
    (st2 : GitState) (h : checkoutBOrigin st b parent = Except.ok st2) :
    ∃ psha pc, lookupA st.trackingRefs parent = some psha ∧
      lookupA st.commits psha = some pc ∧
      st2 = { st with
        localBranches := setA st.localBranches b psha,
        head := b, workTree := pc.tree, index := pc.tree } := by
  cases h1 : lookupA st.trackingRefs parent with
  | none => simp [checkoutBOrigin, h1] at h
  | some psha =>
    cases h2 : lookupA st.commits psha with
    | none => simp [checkoutBOrigin, h1, h2] at h
    | some pc =>
      simp [checkoutBOrigin, h1, h2] at h
      exact ⟨psha, pc, by simp [h1], by simp [h2], h.symm⟩

theorem pushForce_ok (st : GitState) (b : String) (st' : GitState)
    (h : pushForce st b = Except.ok st') :
    ∃ sha, lookupA st.localBranches b = some sha ∧
      st' = { st with
        remoteBranches := setA st.remoteBranches b sha,
        trackingRefs := setA st.trackingRefs b sha } := by
  cases h1 : lookupA st.localBranches b with
  | none => simp [pushForce, h1] at h
  | some sha =>
    simp [pushForce, h1] at h
    exact ⟨sha, by simp [h1], h.symm⟩

theorem pushDeleteOrigin_ok (st : GitState) (b : String) (st1 : GitState)
    (h : pushDeleteOrigin st b = Except.ok st1) :
    st1 = { st with
      remoteBranches := removeA st.remoteBranches b,
      trackingRefs := removeA st.trackingRefs b } := by
  cases h1 : lookupA st.remoteBranches b with
  | none => simp [pushDeleteOrigin, h1] at h
  | some sha =>
    simp [pushDeleteOrigin, h1] at h
    exact h.symm

theorem gitDeleteLocalBranch_ok (st : GitState) (b : String)
    (st2 : GitState) (h : gitDeleteLocalBranch st b = Except.ok st2) :
    st2 = { st with localBranches := removeA st.localBranches b } := by
  by_cases h0 : st.head == b
  · simp [gitDeleteLocalBranch, h0] at h
  · cases h1 : lookupA st.localBranches b with
    | none => simp [gitDeleteLocalBranch, h0, h1] at h
    | some sha =>
      simp [gitDeleteLocalBranch, h0, h1] at h
      exact h.symm

theorem gitCommit_ok (st : GitState) (msg : String) (st5 : GitState)
    (h : gitCommit st msg = Except.ok st5) :
    ∃ psha pc, lookupA st.localBranches st.head = some psha ∧
      lookupA st.commits psha = some pc ∧ st.index ≠ pc.tree ∧
      st5 = { st with
        commits := ("sha-" ++ toString st.fresh,
          { parents := [psha], tree := st.index, authorTime := st.now,
            message := msg }) :: st.commits,
        localBranches :=
          setA st.localBranches st.head ("sha-" ++ toString st.fresh),
        fresh := st.fresh + 1 } := by
  cases h1 : lookupA st.localBranches st.head with
  | none => simp [gitCommit, h1] at h
  | some psha =>
    cases h2 : lookupA st.commits psha with
    | none => simp [gitCommit, h1, h2] at h
    | some pc =>
      by_cases h3 : st.index = pc.tree
      · simp [gitCommit, h1, h2, h3] at h
      · simp [gitCommit, h1, h2, h3] at h
        exact ⟨psha, pc, by simp [h1], by simp [h2], h3, h.symm⟩

/-- C9: the `initRepo` base-branch resolution never leaves the base branch
unset: a truthy configured value is kept verbatim, and otherwise the base
branch is the remote's symbolic default branch reference with the
`refs/remotes/origin/` prefix stripped (and trailing newline trimmed); in
both cases the result is a nonempty branch name.  The symbolic-ref output
is `refs/remotes/origin/<name>` followed by a newline, for a nonempty,
whitespace-free default branch name `name`. -/
theorem initRepoBaseBranch_spec (provided : Option String) (name : String)
    (hne : name.data ≠ []) (hws : ∀ c ∈ name.data, isWsChar c = false) :
    (∀ s, provided = some s → s ≠ "" →
      initRepoBaseBranch provided
        ("refs/remotes/origin/" ++ name ++ "\n") = s) ∧
    (isTruthy provided = false →
      initRepoBaseBranch provided
        ("refs/remotes/origin/" ++ name ++ "\n") = name) ∧
    initRepoBaseBranch provided ("refs/remotes/origin/" ++ name ++ "\n")
      ≠ "" := by
  have hnee : name ≠ "" := by
    intro hh
    apply hne
    rw [hh]
  have hdata : ("refs/remotes/origin/" ++ name ++ "\n").data =
      ("refs/remotes/origin/").data ++ (name.data ++ ['\n']) := by
    simp [String.data_append]
  have hrep : replaceFirstStr "refs/remotes/origin/" ""
      ("refs/remotes/origin/" ++ name ++ "\n") =
      ⟨name.data ++ ['\n']⟩ := by
    simp only [replaceFirstStr, hdata]
    rw [replaceFirstL_left _ _ _ (by decide)]
    rfl
  have hstrip : jsTrim (replaceFirstStr "refs/remotes/origin/" ""
      ("refs/remotes/origin/" ++ name ++ "\n")) = name := by
    rw [hrep]
    show (⟨trimL (name.data ++ ['\n'])⟩ : String) = name
    rw [trimL_append_newline hws]
  refine ⟨?_, ?_, ?_⟩
  · intro s hp hs
    subst hp
    have hst : (s != "") = true := by simpa [bne_iff_ne] using hs
    simp [initRepoBaseBranch, isTruthy, jsOrD, hst, hs]
  · intro hf
    simp [initRepoBaseBranch, hf, hstrip]
  · cases provided with
    | none => simpa [initRepoBaseBranch, isTruthy, hstrip] using hnee
    | some s =>
      by_cases hs : s = ""
      · subst hs
        simpa [initRepoBaseBranch, isTruthy, hstrip] using hnee
      · have hst : (s != "") = true := by simpa [bne_iff_ne] using hs
        simpa [initRepoBaseBranch, isTruthy, jsOrD, hst] using hs

/-- Witness for C9 at concrete input: with no configured base branch and
symbolic-ref output for `master`, the resolved base branch is `master`. -/
theorem initRepoBaseBranch_spec_witness :
    initRepoBaseBranch none ("refs/remotes/origin/" ++ "master" ++ "\n")
      = "master" :=
  (initRepoBaseBranch_spec none "master" (by decide) (by decide)).2.1 rfl

/-- C6: `getFileList` returns the empty sequence without error when the
requested branch (defaulting to the base branch) does not exist, and
otherwise the sequence of every tracked file path of the branch's
remote-tracking tree, obtained by splitting the newline-delimited listing
and removing blank entries (stated for trees whose path names are, as in
git, nonempty and newline-free). -/
theorem getFileList_spec :
    (∀ (config : SessionConfig) (st : GitState) (bn : Option String),
      branchExists st (jsOrD bn config.baseBranch) = false →
      getFileList config st bn = Except.ok []) ∧
    (∀ (config : SessionConfig) (st : GitState) (bn : Option String)
      (c : Commit),
      commitAtOrigin st (jsOrD bn config.baseBranch) = some c →
      (∀ n ∈ c.tree.map (fun p => p.1), n.data ≠ [] ∧ '\n' ∉ n.data) →
      getFileList config st bn = Except.ok (c.tree.map (fun p => p.1))) := by
  constructor
  · intro config st bn h
    simp [getFileList, h]
  · intro config st bn c hc hn
    obtain ⟨sha, h1, h2⟩ : ∃ sha,
        lookupA st.trackingRefs (jsOrD bn config.baseBranch) = some sha ∧
        lookupA st.commits sha = some c := by
      unfold commitAtOrigin at hc
      cases h1 : lookupA st.trackingRefs (jsOrD bn config.baseBranch) with
      | none =>
        rw [h1] at hc
        exact absurd hc (by simp)
      | some sha =>
        rw [h1] at hc
        exact ⟨sha, rfl, hc⟩
    have hbe : branchExists st (jsOrD bn config.baseBranch) = true := by
      simp [branchExists, showBranchOrigin, h1]
    have hsplit : jsSplit '\n' (joinLines (c.tree.map (fun p => p.1)))
        = c.tree.map (fun p => p.1) ++ [""] :=
      jsSplit_joinLines _ (fun n hx => (hn n hx).2)
    have hfilter : ((c.tree.map (fun p => p.1) ++ [""]).filter
        (fun s => s != "")) = c.tree.map (fun p => p.1) := by
      rw [List.filter_append]
      have hall : ∀ n ∈ c.tree.map (fun p => p.1), (n != "") = true := by
        intro n hx
        have hd := (hn n hx).1
        have hne : n ≠ "" := by
          intro hh
          apply hd
          rw [hh]
        simpa [bne_iff_ne] using hne
      rw [List.filter_eq_self.mpr hall]
      simp
    simp [getFileList, hbe, lsTreeOrigin, h1, h2, hsplit, hfilter]

/-- Witness for C6 at a concrete state: listing the base branch of
`baseState` yields exactly its tracked path. -/
theorem getFileList_spec_witness :
    getFileList cfgMaster baseState none = Except.ok ["README.md"] :=
  getFileList_spec.2 cfgMaster baseState none commit0 (by decide) (by decide)

/-- C3: `isBranchStale(b)` answers true exactly when `b` is absent from
the set of remote-tracking branches containing the current base branch's
tip (names taken with the remote-tracking prefix stripped); in particular,
on concrete states, a branch freshly created at the current base tip is
not stale and a branch whose base has advanced past it is stale. -/
theorem isBranchStale_spec :
    (∀ (config : SessionConfig) (st : GitState) (b baseSha : String)
      (res : Bool),
      resolveRef st config.baseBranch = some baseSha →
      isBranchStale config st b = Except.ok res →
      (res = true ↔ b ∉ containingBranchNames st baseSha)) ∧
    isBranchStale cfgMaster freshState "feature" = Except.ok false ∧
    isBranchStale cfgMaster advancedState "feature" = Except.ok true := by
  refine ⟨?_, rfl, rfl⟩
  intro config st b baseSha res hre h
  simp only [isBranchStale, branchRemotesContains, hre] at h
  have hres : res = !((((st.trackingRefs.filter
      (fun p => containsCommit st.commits p.2 baseSha)).map
      (fun p => "origin/" ++ p.1)).map localName).contains b) := by
    simpa using h.symm
  subst hres
  simp [containingBranchNames, List.map_map, Function.comp]

/-- Witness for C3: applying the characterization at the advanced-base
state, where `feature` is stale. -/
theorem isBranchStale_spec_witness :
    (true = true ↔ "feature" ∉ containingBranchNames advancedState "c1") :=
  isBranchStale_spec.1 cfgMaster advancedState "feature" "c1" true
    (by decide) rfl

/-- C7: `deleteBranch(b)` deletes the remote branch first and then
best-effort deletes the local branch: whenever the remote deletion
succeeds the whole operation succeeds (any failure of the local deletion
is swallowed), and after a successful `deleteBranch(b)`, `branchExists(b)`
is false. -/
theorem deleteBranch_spec :
    (∀ (st : GitState) (b : String) (st' : GitState),
      deleteBranch st b = Except.ok st' → branchExists st' b = false) ∧
    (∀ (st : GitState) (b : String) (st1 : GitState),
      pushDeleteOrigin st b = Except.ok st1 →
      deleteBranch st b = Except.ok st1 ∨
        ∃ st2, gitDeleteLocalBranch st1 b = Except.ok st2 ∧
          deleteBranch st b = Except.ok st2) := by
  constructor
  · intro st b st' h
    cases h1 : pushDeleteOrigin st b with
    | error e => simp [deleteBranch, h1] at h
    | ok st1 =>
      have hst1 := pushDeleteOrigin_ok st b st1 h1
      cases h2 : gitDeleteLocalBranch st1 b with
      | ok st2 =>
        have hst2 := gitDeleteLocalBranch_ok st1 b st2 h2
        have hst' : st' = st2 := by
          simpa [deleteBranch, h1, h2] using h.symm
        subst hst'
        subst hst2
        subst hst1
        simp [branchExists, showBranchOrigin, lookupA_removeA_self]
      | error e =>
        have hst' : st' = st1 := by
          simpa [deleteBranch, h1, h2] using h.symm
        subst hst'
        subst hst1
        simp [branchExists, showBranchOrigin, lookupA_removeA_self]
  · intro st b st1 h1
    cases h2 : gitDeleteLocalBranch st1 b with
    | ok st2 =>
      right
      exact ⟨st2, rfl, by simp [deleteBranch, h1, h2]⟩
    | error e =>
      left
      simp [deleteBranch, h1, h2]

/-- Witness for C7 at a concrete state: deleting `feature` (which has no
local branch) succeeds and the branch no longer exists. -/
theorem deleteBranch_spec_witness :
    branchExists deletedState "feature" = false :=
  deleteBranch_spec.1 freshState "feature" deletedState rfl

/-- C2: after a successful `createBranch(b, sha)` (hard reset,
force-create of the local branch at `sha`, force push), `getBranchCommit(b)`
returns exactly `sha` (stated for whitespace-free commit identifiers, which
the trim of the raw rev-parse output leaves unchanged). -/
theorem createBranch_getBranchCommit (st : GitState) (b sha : String)
    (st' : GitState) (hws : ∀ c ∈ sha.data, isWsChar c = false)
    (h : createBranch st b sha = Except.ok st') :
    getBranchCommit st' b = Except.ok sha := by
  cases hR : resetHard st with
  | error e => simp [createBranch, hR] at h
  | ok st1 =>
    cases hC : checkoutBSha st1 b sha with
    | error e => simp [createBranch, hR, hC] at h
    | ok st2 =>
      have hP : pushForce st2 b = Except.ok st' := by
        simpa [createBranch, hR, hC] using h
      obtain ⟨c, hc, hst2⟩ := checkoutBSha_ok st1 b sha st2 hC
      obtain ⟨sha2, hlb, hst'⟩ := pushForce_ok st2 b st' hP
      have hsha2 : sha2 = sha := by
        rw [hst2] at hlb
        simp only [lookupA_setA_self] at hlb
        exact (Option.some.inj hlb).symm
      subst hsha2
      have htr : lookupA st'.trackingRefs b = some sha2 := by
        rw [hst']
        exact lookupA_setA_self _ _ _
      simp [getBranchCommit, revparseOrigin, htr,
        jsTrim_append_newline sha2 hws]

/-- Witness for C2 at a concrete state: creating `feature` at `c0` and
reading its commit back. -/
theorem createBranch_getBranchCommit_witness :
    getBranchCommit createdState "feature" = Except.ok "c0" :=
  createBranch_getBranchCommit baseState "feature" "c0" createdState
    (by decide) rfl

theorem commitFilesToBranch_tree (config : SessionConfig) (st : GitState)
    (b : String) (files : List FileChange) (msg : String)
    (pb : Option String) (st' : GitState)
    (h : commitFilesToBranch config st b files msg pb = Except.ok st') :
    ∃ pt, treeAtOrigin st (pb.getD config.baseBranch) = some pt ∧
      treeAtOrigin st' b = some (builtTree pt files) := by
  cases hR : resetHard st with
  | error e => simp [commitFilesToBranch, hR] at h
  | ok st1 =>
    obtain ⟨htr1, hco1, hlb1, hrb1, hh1⟩ := resetHard_frame st st1 hR
    cases hC : checkoutBOrigin st1 b (pb.getD config.baseBranch) with
    | error e => simp [commitFilesToBranch, hR, hC] at h
    | ok st2 =>
      obtain ⟨psha, pc, hps, hpc, hst2⟩ :=
        checkoutBOrigin_ok st1 b (pb.getD config.baseBranch) st2 hC
      simp only [commitFilesToBranch, hR, hC] at h
      have hw2 : st2.workTree = pc.tree := by rw [hst2]
      have hi2 : st2.index = pc.tree := by rw [hst2]
      have hh2 : st2.head = b := by rw [hst2]
      have hl2 : st2.localBranches = setA st1.localBranches b psha := by
        rw [hst2]
      have hc2 : st2.commits = st1.commits := by rw [hst2]
      set st4 := gitAdd { st2 with workTree := doWrites st2.workTree files }
        (files.map (fun f => f.name)) with hst4
      have hh4 : st4.head = b := by simp [hst4, gitAdd, hh2]
      have hl4 : st4.localBranches = setA st1.localBranches b psha := by
        simp [hst4, gitAdd, hl2]
      have hc4 : st4.commits = st1.commits := by simp [hst4, gitAdd, hc2]
      have hidx : st4.index = builtTree pc.tree files := by
        simp [hst4, gitAdd, builtTree, hw2, hi2]
      cases hG : gitCommit st4 msg with
      | error e => simp [hG] at h
      | ok st5 =>
        obtain ⟨qsha, qc, hq1, hq2, hqne, hst5⟩ := gitCommit_ok st4 msg st5 hG
        have hP : pushForce st5 b = Except.ok st' := by simpa [hG] using h
        obtain ⟨rsha, hr1, hst'⟩ := pushForce_ok st5 b st' hP
        rw [hl4, hh4, lookupA_setA_self] at hq1
        obtain rfl : psha = qsha := Option.some.inj hq1
        rw [hst5] at hr1
        simp only [hh4, lookupA_setA_self] at hr1
        obtain rfl : ("sha-" ++ toString st4.fresh) = rsha :=
          Option.some.inj hr1
        refine ⟨pc.tree, ?_, ?_⟩
        · rw [htr1] at hps
          rw [hco1] at hpc
          simp [treeAtOrigin, commitAtOrigin, hps, hpc]
        · rw [hst', hst5]
          simp [treeAtOrigin, commitAtOrigin, lookupA_setA_self,
            lookupA_cons_self, hidx]

/-- C1: `commitFilesToBranch` is idempotent in content: two successive
successful runs with identical branch, files, message and parent branch,
with the remote-tracking tip of the parent branch unchanged in between,
leave the branch tip with identical file tree content (the commit objects
differ only in their minted id and timestamp, which the tree does not
contain). -/
theorem commitFilesToBranch_idempotent (config : SessionConfig)
    (st1 st2 st3 : GitState) (b : String) (files : List FileChange)
    (msg : String) (pb : Option String)
    (h1 : commitFilesToBranch config st1 b files msg pb = Except.ok st2)
    (h2 : commitFilesToBranch config st2 b files msg pb = Except.ok st3)
    (hpar : treeAtOrigin st2 (pb.getD config.baseBranch) =
      treeAtOrigin st1 (pb.getD config.baseBranch)) :
    treeAtOrigin st3 b = treeAtOrigin st2 b := by
  obtain ⟨pt1, hp1, ht1⟩ :=
    commitFilesToBranch_tree config st1 b files msg pb st2 h1
  obtain ⟨pt2, hp2, ht2⟩ :=
    commitFilesToBranch_tree config st2 b files msg pb st3 h2
  rw [hpar, hp1] at hp2
  obtain rfl : pt1 = pt2 := Option.some.inj hp2
  rw [ht1, ht2]

/-- Witness for C1 at a concrete state: running the same commit request
twice over `baseState` gives the same `feature` tip tree both times. -/
theorem commitFilesToBranch_idempotent_witness :
    treeAtOrigin committedState2 "feature" =
      treeAtOrigin committedState1 "feature" :=
  commitFilesToBranch_idempotent cfgMaster baseState committedState1
    committedState2 "feature" [pkgChange] "msg" none rfl rfl rfl
